import Mathlib

/-!
# Least-squares linear regression via Cholesky decomposition

Shallow embedding of `src/02_lin_reg_decomposition.ipynb`: the notebook forms
the normal matrix `tA_A = Aᵀ * A`, factors it with `tf.cholesky`, and solves
the two systems `sol1 = matrix_solve(L, Aᵀy)` and `sol2 = matrix_solve(Lᵀ, sol1)`.
Arithmetic is embedded exactly over `ℝ`; the floating-point "≈ within
tolerance" statements of the specification become exact equalities.

The implementations of `tf.cholesky` and `tf.matrix_solve` are not part of the
repository, so those operations (and the error taxonomy around them) are
modelled from the specification; each such definition says so in its
doc comment.
-/

open Matrix

/-- Modelled from the spec: the error taxonomy of §7 (`DimensionMismatchError`,
`NotPositiveDefiniteError`, `SingularSystemError`); the repository delegates
these failure modes to TensorFlow, whose code is not in `src/`. -/
inductive SolverError where
  | dimensionMismatch : SolverError
  | notPositiveDefinite : SolverError
  | singularSystem : SolverError
  deriving DecidableEq

/-- `L` is lower triangular: every entry strictly above the diagonal is zero. -/
def lowerTriangular {n : ℕ} (L : Matrix (Fin n) (Fin n) ℝ) : Prop :=
  ∀ i j : Fin n, i < j → L i j = 0

/-- `U` is upper triangular: every entry strictly below the diagonal is zero. -/
def upperTriangular {n : ℕ} (U : Matrix (Fin n) (Fin n) ℝ) : Prop :=
  ∀ i j : Fin n, j < i → U i j = 0

/-- The inclusion of the indices `0, …, i-1` into `Fin n`. -/
def castIdx {n : ℕ} (i : Fin n) (k : Fin i.val) : Fin n :=
  ⟨k.val, lt_trans k.isLt i.isLt⟩

/-- The inclusion of the indices `i+1, …, n-1` into `Fin n`. -/
def shiftIdx {n : ℕ} (i : Fin n) (k : Fin (n - 1 - i.val)) : Fin n :=
  ⟨i.val + 1 + k.val, by have hk := k.isLt; have hi := i.isLt; omega⟩

/-- Modelled from the spec: the substitution underlying
`forwardSolve(L, b) -> z`, which "solves L·z = b by row-wise substitution, top
to bottom, using already-computed earlier entries of z"; the solver called by
the notebook (`tf.matrix_solve`) is TensorFlow code absent from `src/`. -/
noncomputable def forwardSub {n : ℕ} (L : Matrix (Fin n) (Fin n) ℝ) (b : Fin n → ℝ)
    (i : Fin n) : ℝ :=
  (b i - ∑ k : Fin i.val, L i (castIdx i k) * forwardSub L b (castIdx i k)) / L i i
termination_by i.val
decreasing_by
  all_goals exact k.isLt

/-- Modelled from the spec: the substitution underlying `backSolve(Lᵗ, z) -> x`,
which "solves Lᵗ·x = z by row-wise substitution, bottom to top". -/
noncomputable def backSub {n : ℕ} (U : Matrix (Fin n) (Fin n) ℝ) (b : Fin n → ℝ)
    (i : Fin n) : ℝ :=
  (b i - ∑ k : Fin (n - 1 - i.val), U i (shiftIdx i k) * backSub U b (shiftIdx i k)) / U i i
termination_by n - i.val
decreasing_by
  all_goals
    simp only [shiftIdx]
    have hi := i.isLt
    omega

/-- Modelled from the spec: `forwardSolve(L, b) -> z` with the §4.1/§7 guard —
"division by a pivot value must check for near-zero … and fail rather than
produce Inf/NaN silently"; in this exact embedding the near-zero test on a
diagonal pivot is an exact zero test, performed before the substitution. -/
noncomputable def forwardSolve {n : ℕ} (L : Matrix (Fin n) (Fin n) ℝ) (b : Fin n → ℝ) :
    Except SolverError (Fin n → ℝ) :=
  if ∀ i, L i i ≠ 0 then .ok (forwardSub L b) else .error .singularSystem

/-- Modelled from the spec: `backSolve(Lᵗ, z) -> x` with the same zero-pivot
guard as `forwardSolve`. -/
noncomputable def backSolve {n : ℕ} (U : Matrix (Fin n) (Fin n) ℝ) (b : Fin n → ℝ) :
    Except SolverError (Fin n → ℝ) :=
  if ∀ i, U i i ≠ 0 then .ok (backSub U b) else .error .singularSystem

/-- Modelled from the spec: the general linear solver `tf.matrix_solve` used by
the notebook for `sol1` and `sol2` (its implementation is TensorFlow code
absent from `src/`): it returns the exact solution `M⁻¹ · b` of `M · x = b`,
and fails on a singular system. -/
noncomputable def matrixSolve {n : ℕ} (M : Matrix (Fin n) (Fin n) ℝ) (b : Fin n → ℝ) :
    Except SolverError (Fin n → ℝ) :=
  if M.det ≠ 0 then .ok (M⁻¹ *ᵥ b) else .error .singularSystem

/-- One step of the Cholesky recursion: the Schur complement of the pivot
`M 0 0` in `M`. -/
noncomputable def schurComplement {n : ℕ} (M : Matrix (Fin (n + 1)) (Fin (n + 1)) ℝ) :
    Matrix (Fin n) (Fin n) ℝ :=
  Matrix.of fun i j => M i.succ j.succ - M i.succ 0 * M j.succ 0 / M 0 0

/-- Reassemble the Cholesky factor of `M` from the factor `Ltail` of the Schur
complement: first column `(√(M 0 0), column 0 of M / √(M 0 0))`, zero first
row past the diagonal, and `Ltail` in the remaining block. -/
noncomputable def cholExtend {n : ℕ} (M : Matrix (Fin (n + 1)) (Fin (n + 1)) ℝ)
    (Ltail : Matrix (Fin n) (Fin n) ℝ) : Matrix (Fin (n + 1)) (Fin (n + 1)) ℝ :=
  Matrix.of (Fin.cons (Fin.cons (Real.sqrt (M 0 0)) fun _ => 0)
    fun i => Fin.cons (M i.succ 0 / Real.sqrt (M 0 0)) fun j => Ltail i j)

/-- Modelled from the spec: `choleskyDecompose(M) -> L`, which "computes
lower-triangular L with L·Lᵗ = M" and "fails with a `NotPositiveDefiniteError`
if M has a non-positive pivot during decomposition"; the notebook's
`tf.cholesky` is TensorFlow code absent from `src/`. The factor is computed by
the standard pivot/Schur-complement recursion, checking each pivot. -/
noncomputable def cholesky : (n : ℕ) → Matrix (Fin n) (Fin n) ℝ →
    Except SolverError (Matrix (Fin n) (Fin n) ℝ)
  | 0, _ => .ok 0
  | n + 1, M =>
    if 0 < M 0 0 then
      Except.map (cholExtend M) (cholesky n (schurComplement M))
    else
      .error .notPositiveDefinite

/-- The notebook's pipeline (`fit(A, y) -> x` in the spec): form
`tA_A = Aᵀ * A`, factor `L = cholesky(tA_A)`, then
`sol1 = matrix_solve(L, Aᵀ·y)` and `sol2 = matrix_solve(Lᵀ, sol1)`. -/
noncomputable def fit {n k : ℕ} (A : Matrix (Fin n) (Fin k) ℝ) (y : Fin n → ℝ) :
    Except SolverError (Fin k → ℝ) :=
  (cholesky k (Aᵀ * A)).bind fun L =>
    (matrixSolve L (Aᵀ *ᵥ y)).bind fun sol1 =>
      matrixSolve Lᵀ sol1

/-- The spec's composition of §4.1: `M = Aᵗ·A; L = cholesky(M); solve L·w = Aᵗ·y
for w (forward substitution); solve Lᵗ·x = w for x (back substitution)`. -/
noncomputable def fitSpec {n k : ℕ} (A : Matrix (Fin n) (Fin k) ℝ) (y : Fin n → ℝ) :
    Except SolverError (Fin k → ℝ) :=
  (cholesky k (Aᵀ * A)).bind fun L =>
    (forwardSolve L (Aᵀ *ᵥ y)).bind fun w =>
      backSolve Lᵀ w

/-- The notebook's `x_vals = np.linspace(0, 10, 100)`: the `i`-th of 100 evenly
spaced values from 0 to 10. -/
noncomputable def x_vals (i : Fin 100) : ℝ := 10 * i.val / 99

/-- The notebook's design matrix `A = column_stack((x_vals_column, ones_column))`:
column 0 holds `x_vals`, column 1 is all ones. -/
noncomputable def designA : Matrix (Fin 100) (Fin 2) ℝ :=
  Matrix.of fun i j => if j = 0 then x_vals i else 1

/-- Modelled from the spec: `fit` on raw (list-shaped) inputs with the §7
dimension validation — "`DimensionMismatchError`: raised when A's row count
differs from y's length, or A is not rectangular"; the notebook delegates shape
checking to TensorFlow, whose code is not in `src/`. -/
noncomputable def fitL (A : List (List ℝ)) (y : List ℝ) : Except SolverError (List ℝ) :=
  if (∀ r ∈ A, r.length = (A.headD []).length) ∧ y.length = A.length then
    (fit (n := A.length) (k := (A.headD []).length)
        (Matrix.of fun i j => (A.getD i.val []).getD j.val 0)
        (fun i => y.getD i.val 0)).map fun x => List.ofFn x
  else .error .dimensionMismatch

/-! ## Index bookkeeping for the triangular sums -/

theorem sum_castIdx {n : ℕ} (g : Fin n → ℝ) (i : Fin n) :
    ∑ k : Fin i.val, g (castIdx i k) = ∑ j ∈ Finset.univ.filter (fun j => j < i), g j := by
  have himg : (Finset.univ.filter fun j => j < i) = Finset.univ.image (castIdx i) := by
    ext j
    simp only [Finset.mem_filter, Finset.mem_univ, true_and, Finset.mem_image]
    constructor
    · intro hj
      exact ⟨⟨j.val, hj⟩, by simp [castIdx]⟩
    · rintro ⟨k, rfl⟩
      simp [castIdx, Fin.lt_def]
  rw [himg, Finset.sum_image]
  intro x hx y hy hxy
  have hv := congrArg Fin.val hxy
  simp only [castIdx] at hv
  exact Fin.ext hv

theorem sum_shiftIdx {n : ℕ} (g : Fin n → ℝ) (i : Fin n) :
    ∑ k : Fin (n - 1 - i.val), g (shiftIdx i k)
      = ∑ j ∈ Finset.univ.filter (fun j => i < j), g j := by
  have himg : (Finset.univ.filter fun j => i < j) = Finset.univ.image (shiftIdx i) := by
    ext j
    simp only [Finset.mem_filter, Finset.mem_univ, true_and, Finset.mem_image]
    constructor
    · intro hj
      have h1 : i.val < j.val := hj
      have h2 := j.isLt
      refine ⟨⟨j.val - i.val - 1, by omega⟩, ?_⟩
      simp only [shiftIdx]
      exact Fin.ext (by simp; omega)
    · rintro ⟨k, rfl⟩
      have hk := k.isLt
      simp only [shiftIdx, Fin.lt_def]
      omega
  rw [himg, Finset.sum_image]
  intro x hx y hy hxy
  have hv := congrArg Fin.val hxy
  simp only [shiftIdx] at hv
  exact Fin.ext (by omega)

theorem sum_split {n : ℕ} (f : Fin n → ℝ) (i : Fin n) :
    ∑ j, f j = (∑ j ∈ Finset.univ.filter (fun j => j < i), f j) + f i
      + ∑ j ∈ Finset.univ.filter (fun j => i < j), f j := by
  have h1 : (Finset.univ.filter fun j => ¬ j < i)
      = insert i (Finset.univ.filter fun j => i < j) := by
    ext j
    simp only [Finset.mem_filter, Finset.mem_univ, true_and, Finset.mem_insert, not_lt]
    constructor
    · intro h
      rcases eq_or_lt_of_le h with h | h
      · exact Or.inl h.symm
      · exact Or.inr h
    · rintro (rfl | h)
      · exact le_refl _
      · exact le_of_lt h
  rw [← Finset.sum_filter_add_sum_filter_not Finset.univ (fun j => j < i) f, h1,
    Finset.sum_insert (by simp)]
  ring

/-! ## Correctness of the two substitutions -/

theorem forwardSub_mulVec {n : ℕ} {L : Matrix (Fin n) (Fin n) ℝ} (hL : lowerTriangular L)
    (hd : ∀ i, L i i ≠ 0) (b : Fin n → ℝ) : L *ᵥ forwardSub L b = b := by
  funext i
  have hmul : L i i * forwardSub L b i
      = b i - ∑ j ∈ Finset.univ.filter (fun j => j < i), L i j * forwardSub L b j := by
    rw [forwardSub, mul_comm, div_mul_cancel₀ _ (hd i),
      sum_castIdx (fun j => L i j * forwardSub L b j) i]
  have hupper : ∑ j ∈ Finset.univ.filter (fun j => i < j), L i j * forwardSub L b j = 0 :=
    Finset.sum_eq_zero fun j hj => by
      rw [hL i j (Finset.mem_filter.mp hj).2, zero_mul]
  show ∑ j, L i j * forwardSub L b j = b i
  rw [sum_split (fun j => L i j * forwardSub L b j) i, hupper, hmul]
  ring

theorem backSub_mulVec {n : ℕ} {U : Matrix (Fin n) (Fin n) ℝ} (hU : upperTriangular U)
    (hd : ∀ i, U i i ≠ 0) (b : Fin n → ℝ) : U *ᵥ backSub U b = b := by
  funext i
  have hmul : U i i * backSub U b i
      = b i - ∑ j ∈ Finset.univ.filter (fun j => i < j), U i j * backSub U b j := by
    rw [backSub, mul_comm, div_mul_cancel₀ _ (hd i),
      sum_shiftIdx (fun j => U i j * backSub U b j) i]
  have hlower : ∑ j ∈ Finset.univ.filter (fun j => j < i), U i j * backSub U b j = 0 :=
    Finset.sum_eq_zero fun j hj => by
      rw [hU i j (Finset.mem_filter.mp hj).2, zero_mul]
  show ∑ j, U i j * backSub U b j = b i
  rw [sum_split (fun j => U i j * backSub U b j) i, hlower, hmul]
  ring

/-! ## Triangular determinants and agreement of the solvers -/

theorem lowerTriangular_det {n : ℕ} {L : Matrix (Fin n) (Fin n) ℝ}
    (hL : lowerTriangular L) : L.det = ∏ i, L i i :=
  Matrix.det_of_lowerTriangular L fun i j h => hL i j (OrderDual.toDual_lt_toDual.mp h)

theorem upperTriangular_det {n : ℕ} {U : Matrix (Fin n) (Fin n) ℝ}
    (hU : upperTriangular U) : U.det = ∏ i, U i i :=
  Matrix.det_of_upperTriangular fun i j h => hU i j h

theorem lowerTriangular_det_ne_zero {n : ℕ} {L : Matrix (Fin n) (Fin n) ℝ}
    (hL : lowerTriangular L) (hd : ∀ i, L i i ≠ 0) : L.det ≠ 0 := by
  rw [lowerTriangular_det hL]
  exact Finset.prod_ne_zero_iff.mpr fun i _ => hd i

theorem upperTriangular_det_ne_zero {n : ℕ} {U : Matrix (Fin n) (Fin n) ℝ}
    (hU : upperTriangular U) (hd : ∀ i, U i i ≠ 0) : U.det ≠ 0 := by
  rw [upperTriangular_det hU]
  exact Finset.prod_ne_zero_iff.mpr fun i _ => hd i

theorem inv_mulVec_eq_of_mulVec_eq {n : ℕ} {M : Matrix (Fin n) (Fin n) ℝ}
    (hdet : M.det ≠ 0) {z b : Fin n → ℝ} (h : M *ᵥ z = b) : M⁻¹ *ᵥ b = z := by
  rw [← h, Matrix.mulVec_mulVec, Matrix.nonsing_inv_mul M (isUnit_iff_ne_zero.mpr hdet),
    Matrix.one_mulVec]

theorem matrixSolve_eq_forwardSub {n : ℕ} {L : Matrix (Fin n) (Fin n) ℝ}
    (hL : lowerTriangular L) (hd : ∀ i, L i i ≠ 0) (b : Fin n → ℝ) :
    matrixSolve L b = .ok (forwardSub L b) := by
  have hdet := lowerTriangular_det_ne_zero hL hd
  rw [matrixSolve, if_pos hdet, inv_mulVec_eq_of_mulVec_eq hdet (forwardSub_mulVec hL hd b)]

theorem matrixSolve_eq_backSub {n : ℕ} {U : Matrix (Fin n) (Fin n) ℝ}
    (hU : upperTriangular U) (hd : ∀ i, U i i ≠ 0) (b : Fin n → ℝ) :
    matrixSolve U b = .ok (backSub U b) := by
  have hdet := upperTriangular_det_ne_zero hU hd
  rw [matrixSolve, if_pos hdet, inv_mulVec_eq_of_mulVec_eq hdet (backSub_mulVec hU hd b)]

theorem forwardSolve_ok {n : ℕ} {L : Matrix (Fin n) (Fin n) ℝ}
    (hd : ∀ i, L i i ≠ 0) (b : Fin n → ℝ) : forwardSolve L b = .ok (forwardSub L b) := by
  rw [forwardSolve, if_pos hd]

theorem backSolve_ok {n : ℕ} {U : Matrix (Fin n) (Fin n) ℝ}
    (hd : ∀ i, U i i ≠ 0) (b : Fin n → ℝ) : backSolve U b = .ok (backSub U b) := by
  rw [backSolve, if_pos hd]

theorem transpose_upperTriangular {n : ℕ} {L : Matrix (Fin n) (Fin n) ℝ}
    (hL : lowerTriangular L) : upperTriangular Lᵀ :=
  fun i j h => hL j i h

/-! ## Unfolding the Cholesky recursion -/

theorem cholesky_zero (M : Matrix (Fin 0) (Fin 0) ℝ) : cholesky 0 M = .ok 0 := rfl

theorem cholesky_succ {n : ℕ} (M : Matrix (Fin (n + 1)) (Fin (n + 1)) ℝ) :
    cholesky (n + 1) M = if 0 < M 0 0 then
      Except.map (cholExtend M) (cholesky n (schurComplement M))
    else .error .notPositiveDefinite := rfl

theorem cholesky_succ_ok {n : ℕ} {M L : Matrix (Fin (n + 1)) (Fin (n + 1)) ℝ}
    (h : cholesky (n + 1) M = .ok L) :
    0 < M 0 0 ∧ ∃ Ltail, cholesky n (schurComplement M) = .ok Ltail ∧ L = cholExtend M Ltail := by
  rw [cholesky_succ] at h
  by_cases hp : 0 < M 0 0
  · rw [if_pos hp] at h
    cases hrec : cholesky n (schurComplement M) with
    | ok Ltail =>
      rw [hrec] at h
      simp only [Except.map, Except.ok.injEq] at h
      exact ⟨hp, Ltail, rfl, h.symm⟩
    | error e =>
      rw [hrec] at h
      simp [Except.map] at h
  · rw [if_neg hp] at h
    cases h

theorem cholExtend_zero_zero {n : ℕ} (M : Matrix (Fin (n + 1)) (Fin (n + 1)) ℝ)
    (Ltail : Matrix (Fin n) (Fin n) ℝ) :
    cholExtend M Ltail 0 0 = Real.sqrt (M 0 0) := by
  simp [cholExtend]

theorem cholExtend_zero_succ {n : ℕ} (M : Matrix (Fin (n + 1)) (Fin (n + 1)) ℝ)
    (Ltail : Matrix (Fin n) (Fin n) ℝ) (j : Fin n) :
    cholExtend M Ltail 0 j.succ = 0 := by
  simp [cholExtend]

theorem cholExtend_succ_zero {n : ℕ} (M : Matrix (Fin (n + 1)) (Fin (n + 1)) ℝ)
    (Ltail : Matrix (Fin n) (Fin n) ℝ) (i : Fin n) :
    cholExtend M Ltail i.succ 0 = M i.succ 0 / Real.sqrt (M 0 0) := by
  simp [cholExtend]

theorem cholExtend_succ_succ {n : ℕ} (M : Matrix (Fin (n + 1)) (Fin (n + 1)) ℝ)
    (Ltail : Matrix (Fin n) (Fin n) ℝ) (i j : Fin n) :
    cholExtend M Ltail i.succ j.succ = Ltail i j := by
  simp [cholExtend]

/-! ## Shape of a successful Cholesky factor -/

theorem cholesky_ok_diag_pos {n : ℕ} : ∀ {M L : Matrix (Fin n) (Fin n) ℝ},
    cholesky n M = .ok L → ∀ i, 0 < L i i := by
  induction n with
  | zero => intro M L h i; exact i.elim0
  | succ n ih =>
    intro M L h i
    obtain ⟨hp, Ltail, hrec, rfl⟩ := cholesky_succ_ok h
    induction i using Fin.cases with
    | zero => rw [cholExtend_zero_zero]; exact Real.sqrt_pos.mpr hp
    | succ i' => rw [cholExtend_succ_succ]; exact ih hrec i'

theorem cholesky_ok_lowerTriangular {n : ℕ} : ∀ {M L : Matrix (Fin n) (Fin n) ℝ},
    cholesky n M = .ok L → lowerTriangular L := by
  induction n with
  | zero => intro M L h i j hij; exact i.elim0
  | succ n ih =>
    intro M L h i j hij
    obtain ⟨hp, Ltail, hrec, rfl⟩ := cholesky_succ_ok h
    induction j using Fin.cases with
    | zero => exact absurd hij (Fin.not_lt_zero i)
    | succ j' =>
      induction i using Fin.cases with
      | zero => rw [cholExtend_zero_succ]
      | succ i' =>
        rw [cholExtend_succ_succ]
        exact ih hrec i' j' (by simpa [Fin.succ_lt_succ_iff] using hij)

theorem cholesky_ok_mul_transpose {n : ℕ} : ∀ {M L : Matrix (Fin n) (Fin n) ℝ},
    Mᵀ = M → cholesky n M = .ok L → L * Lᵀ = M := by
  induction n with
  | zero =>
    intro M L _ _
    ext i j
    exact i.elim0
  | succ n ih =>
    intro M L hsym h
    have hMsym : ∀ i j, M j i = M i j := fun i j => congrFun (congrFun hsym i) j
    obtain ⟨hp, Ltail, hrec, rfl⟩ := cholesky_succ_ok h
    have hS : (schurComplement M)ᵀ = schurComplement M := by
      ext i j
      simp only [transpose_apply, schurComplement, Matrix.of_apply]
      rw [hMsym i.succ j.succ]
      ring
    have hLt := ih hS hrec
    have ha : Real.sqrt (M 0 0) * Real.sqrt (M 0 0) = M 0 0 := Real.mul_self_sqrt hp.le
    have hsne : Real.sqrt (M 0 0) ≠ 0 := ne_of_gt (Real.sqrt_pos.mpr hp)
    ext i j
    rw [Matrix.mul_apply]
    simp only [transpose_apply]
    induction i using Fin.cases with
    | zero =>
      induction j using Fin.cases with
      | zero =>
        rw [Fin.sum_univ_succ]
        simp only [cholExtend_zero_zero, cholExtend_zero_succ]
        simp [ha]
      | succ j' =>
        rw [Fin.sum_univ_succ]
        simp only [cholExtend_zero_zero, cholExtend_zero_succ, cholExtend_succ_zero,
          cholExtend_succ_succ]
        have hc : Real.sqrt (M 0 0) * (M j'.succ 0 / Real.sqrt (M 0 0)) = M j'.succ 0 := by
          rw [mul_div_assoc']
          rw [mul_comm]
          rw [mul_div_assoc, div_self hsne, mul_one]
        rw [hc]
        simp [hMsym 0 j'.succ]
    | succ i' =>
      induction j using Fin.cases with
      | zero =>
        rw [Fin.sum_univ_succ]
        simp only [cholExtend_zero_zero, cholExtend_zero_succ, cholExtend_succ_zero,
          cholExtend_succ_succ]
        rw [div_mul_cancel₀ _ hsne]
        simp
      | succ j' =>
        rw [Fin.sum_univ_succ]
        simp only [cholExtend_succ_zero, cholExtend_succ_succ]
        have hsum : ∑ x : Fin n, Ltail i' x * Ltail j' x = schurComplement M i' j' := by
          have hentry := congrFun (congrFun hLt i') j'
          rw [Matrix.mul_apply] at hentry
          simpa [transpose_apply] using hentry
        rw [hsum]
        simp only [schurComplement, Matrix.of_apply]
        rw [div_mul_div_comm, ha]
        ring

/-! ## Positive definiteness and Cholesky: success and failure -/

theorem posDef_diag_pos {n : ℕ} {M : Matrix (Fin n) (Fin n) ℝ} (hM : M.PosDef)
    (i : Fin n) : 0 < M i i := by
  have h1 := hM.2 (Pi.single i 1) (Function.ne_iff.mpr ⟨i, by simp⟩)
  simpa using h1

theorem cons_quadForm {n : ℕ} (M : Matrix (Fin (n + 1)) (Fin (n + 1)) ℝ) (t : ℝ)
    (v : Fin n → ℝ) :
    (Fin.cons t v : Fin (n + 1) → ℝ) ⬝ᵥ (M *ᵥ Fin.cons t v)
      = t * (M 0 0 * t + ∑ j, M 0 j.succ * v j)
        + ∑ i, v i * (M i.succ 0 * t + ∑ j, M i.succ j.succ * v j) := by
  simp only [dotProduct, Matrix.mulVec]
  rw [Fin.sum_univ_succ]
  congr 1
  · rw [Fin.sum_univ_succ]
    simp [Fin.cons_zero, Fin.cons_succ, dotProduct]
  · apply Finset.sum_congr rfl
    intro i _
    rw [Fin.sum_univ_succ]
    simp [Fin.cons_zero, Fin.cons_succ, dotProduct]

theorem schur_quadForm {n : ℕ} (M : Matrix (Fin (n + 1)) (Fin (n + 1)) ℝ) (v : Fin n → ℝ) :
    v ⬝ᵥ (schurComplement M *ᵥ v)
      = (∑ i, v i * ∑ j, M i.succ j.succ * v j)
        - (∑ i, M i.succ 0 * v i) * (∑ j, M j.succ 0 * v j) / M 0 0 := by
  simp only [dotProduct, Matrix.mulVec, schurComplement, Matrix.of_apply]
  have hinner : ∀ i : Fin n, ∑ j, (M i.succ j.succ - M i.succ 0 * M j.succ 0 / M 0 0) * v j
      = (∑ j, M i.succ j.succ * v j)
        - M i.succ 0 / M 0 0 * ∑ j, M j.succ 0 * v j := by
    intro i
    calc ∑ j, (M i.succ j.succ - M i.succ 0 * M j.succ 0 / M 0 0) * v j
        = ∑ j, (M i.succ j.succ * v j - M i.succ 0 / M 0 0 * (M j.succ 0 * v j)) :=
          Finset.sum_congr rfl fun j _ => by ring
      _ = (∑ j, M i.succ j.succ * v j)
            - M i.succ 0 / M 0 0 * ∑ j, M j.succ 0 * v j := by
          rw [Finset.sum_sub_distrib, Finset.mul_sum]
  calc ∑ i, v i * ∑ j, (M i.succ j.succ - M i.succ 0 * M j.succ 0 / M 0 0) * v j
      = ∑ i, (v i * ∑ j, M i.succ j.succ * v j
          - (M i.succ 0 * v i) * ((∑ j, M j.succ 0 * v j) / M 0 0)) :=
        Finset.sum_congr rfl fun i _ => by rw [hinner i]; ring
    _ = (∑ i, v i * ∑ j, M i.succ j.succ * v j)
          - (∑ i, M i.succ 0 * v i) * ((∑ j, M j.succ 0 * v j) / M 0 0) := by
        rw [Finset.sum_sub_distrib, Finset.sum_mul]
    _ = (∑ i, v i * ∑ j, M i.succ j.succ * v j)
          - (∑ i, M i.succ 0 * v i) * (∑ j, M j.succ 0 * v j) / M 0 0 := by
        ring

theorem schurComplement_posDef {n : ℕ} {M : Matrix (Fin (n + 1)) (Fin (n + 1)) ℝ}
    (hM : M.PosDef) : (schurComplement M).PosDef := by
  have hsym : Mᵀ = M := by
    rw [← Matrix.conjTranspose_eq_transpose_of_trivial]
    exact hM.1
  have hMsym : ∀ i j, M j i = M i j := fun i j => congrFun (congrFun hsym i) j
  have hapos : 0 < M 0 0 := posDef_diag_pos hM 0
  have hane : M 0 0 ≠ 0 := ne_of_gt hapos
  constructor
  · show (schurComplement M)ᴴ = schurComplement M
    rw [Matrix.conjTranspose_eq_transpose_of_trivial]
    ext i j
    simp only [transpose_apply, schurComplement, Matrix.of_apply]
    rw [hMsym i.succ j.succ]
    ring
  · intro v hv
    have hwne : (Fin.cons (-((∑ j, M j.succ 0 * v j) / M 0 0)) v : Fin (n + 1) → ℝ) ≠ 0 := by
      intro h0
      apply hv
      funext j
      have hj := congrFun h0 j.succ
      simpa using hj
    have hq := hM.2 _ hwne
    have hkey : star v ⬝ᵥ (schurComplement M *ᵥ v)
        = star (Fin.cons (-((∑ j, M j.succ 0 * v j) / M 0 0)) v : Fin (n + 1) → ℝ)
            ⬝ᵥ (M *ᵥ Fin.cons (-((∑ j, M j.succ 0 * v j) / M 0 0)) v) := by
      rw [star_trivial, star_trivial, cons_quadForm, schur_quadForm]
      have e1 : ∑ j, M 0 j.succ * v j = ∑ j, M j.succ 0 * v j :=
        Finset.sum_congr rfl fun j _ => by rw [hMsym j.succ 0]
      have e2 : ∑ i, v i
            * (M i.succ 0 * -((∑ j, M j.succ 0 * v j) / M 0 0)
              + ∑ j, M i.succ j.succ * v j)
          = (∑ i, M i.succ 0 * v i) * -((∑ j, M j.succ 0 * v j) / M 0 0)
            + ∑ i, v i * ∑ j, M i.succ j.succ * v j := by
        calc ∑ i, v i * (M i.succ 0 * -((∑ j, M j.succ 0 * v j) / M 0 0)
                + ∑ j, M i.succ j.succ * v j)
            = ∑ i, ((M i.succ 0 * v i) * -((∑ j, M j.succ 0 * v j) / M 0 0)
                + v i * ∑ j, M i.succ j.succ * v j) :=
              Finset.sum_congr rfl fun i _ => by ring
          _ = (∑ i, (M i.succ 0 * v i) * -((∑ j, M j.succ 0 * v j) / M 0 0))
                + ∑ i, v i * ∑ j, M i.succ j.succ * v j := by
              rw [Finset.sum_add_distrib]
          _ = (∑ i, M i.succ 0 * v i) * -((∑ j, M j.succ 0 * v j) / M 0 0)
                + ∑ i, v i * ∑ j, M i.succ j.succ * v j := by
              rw [Finset.sum_mul]
      rw [e1, e2]
      field_simp
      ring
    rw [hkey]
    exact hq

theorem cholesky_ok_of_posDef {n : ℕ} : ∀ {M : Matrix (Fin n) (Fin n) ℝ}, M.PosDef →
    ∃ L, cholesky n M = .ok L := by
  induction n with
  | zero => intro M _; exact ⟨0, rfl⟩
  | succ n ih =>
    intro M hM
    obtain ⟨Ltail, hLtail⟩ := ih (schurComplement_posDef hM)
    refine ⟨cholExtend M Ltail, ?_⟩
    rw [cholesky_succ, if_pos (posDef_diag_pos hM 0), hLtail]
    rfl

theorem cholesky_ok_posDef {n : ℕ} {M L : Matrix (Fin n) (Fin n) ℝ} (hsym : Mᵀ = M)
    (h : cholesky n M = .ok L) : M.PosDef := by
  have hfac := cholesky_ok_mul_transpose hsym h
  have hlow := cholesky_ok_lowerTriangular h
  have hdpos := cholesky_ok_diag_pos h
  have hdet : L.det ≠ 0 := lowerTriangular_det_ne_zero hlow fun i => ne_of_gt (hdpos i)
  constructor
  · show Mᴴ = M
    rw [Matrix.conjTranspose_eq_transpose_of_trivial]
    exact hsym
  · intro x hx
    have hne : Lᵀ *ᵥ x ≠ 0 := by
      intro h0
      apply hx
      have hxr : (Lᵀ)⁻¹ *ᵥ (Lᵀ *ᵥ x) = x := by
        rw [Matrix.mulVec_mulVec, Matrix.nonsing_inv_mul _
          (by rw [Matrix.det_transpose]; exact isUnit_iff_ne_zero.mpr hdet),
          Matrix.one_mulVec]
      rw [← hxr, h0, Matrix.mulVec_zero]
    have hassoc : x ⬝ᵥ ((L * Lᵀ) *ᵥ x) = (Lᵀ *ᵥ x) ⬝ᵥ (Lᵀ *ᵥ x) := by
      calc x ⬝ᵥ ((L * Lᵀ) *ᵥ x) = x ⬝ᵥ (L *ᵥ (Lᵀ *ᵥ x)) := by rw [Matrix.mulVec_mulVec]
        _ = (x ᵥ* L) ⬝ᵥ (Lᵀ *ᵥ x) := Matrix.dotProduct_mulVec x L (Lᵀ *ᵥ x)
        _ = (Lᵀ *ᵥ x) ⬝ᵥ (Lᵀ *ᵥ x) := by rw [Matrix.mulVec_transpose]
    rw [star_trivial, ← hfac, hassoc]
    have := Matrix.dotProduct_star_self_pos_iff.mpr hne
    rwa [star_trivial] at this

theorem cholesky_error_eq {n : ℕ} : ∀ {M : Matrix (Fin n) (Fin n) ℝ} {e : SolverError},
    cholesky n M = .error e → e = .notPositiveDefinite := by
  induction n with
  | zero => intro M e h; cases h
  | succ n ih =>
    intro M e h
    rw [cholesky_succ] at h
    by_cases hp : 0 < M 0 0
    · rw [if_pos hp] at h
      cases hrec : cholesky n (schurComplement M) with
      | ok Ltail => rw [hrec] at h; simp [Except.map] at h
      | error e2 =>
        rw [hrec] at h
        simp only [Except.map] at h
        cases h
        exact ih hrec
    · rw [if_neg hp] at h
      cases h
      rfl

/-! ## The normal matrix and the full pipeline -/

theorem transpose_mul_self_symm {n k : ℕ} (A : Matrix (Fin n) (Fin k) ℝ) :
    (Aᵀ * A)ᵀ = Aᵀ * A := by
  rw [Matrix.transpose_mul, Matrix.transpose_transpose]

theorem posDef_transpose_mul_self {n k : ℕ} {A : Matrix (Fin n) (Fin k) ℝ}
    (hA : Function.Injective A.mulVec) : (Aᵀ * A).PosDef := by
  constructor
  · show (Aᵀ * A)ᴴ = Aᵀ * A
    rw [Matrix.conjTranspose_eq_transpose_of_trivial]
    exact transpose_mul_self_symm A
  · intro x hx
    have hAx : A *ᵥ x ≠ 0 := by
      intro h0
      apply hx
      apply hA
      rw [h0, Matrix.mulVec_zero]
    have hassoc : x ⬝ᵥ ((Aᵀ * A) *ᵥ x) = (A *ᵥ x) ⬝ᵥ (A *ᵥ x) := by
      calc x ⬝ᵥ ((Aᵀ * A) *ᵥ x) = x ⬝ᵥ (Aᵀ *ᵥ (A *ᵥ x)) := by rw [Matrix.mulVec_mulVec]
        _ = (x ᵥ* Aᵀ) ⬝ᵥ (A *ᵥ x) := Matrix.dotProduct_mulVec x Aᵀ (A *ᵥ x)
        _ = (A *ᵥ x) ⬝ᵥ (A *ᵥ x) := by rw [Matrix.vecMul_transpose]
    rw [star_trivial, hassoc]
    have hpos := Matrix.dotProduct_star_self_pos_iff.mpr hAx
    rwa [star_trivial] at hpos

theorem posDef_mulVec_injective {n : ℕ} {M : Matrix (Fin n) (Fin n) ℝ} (hM : M.PosDef) :
    Function.Injective M.mulVec := by
  intro u w huw
  by_contra hneq
  have hd : u - w ≠ 0 := sub_ne_zero.mpr hneq
  have h0 : M *ᵥ (u - w) = 0 := by rw [Matrix.mulVec_sub, huw, sub_self]
  have hq := hM.2 (u - w) hd
  rw [h0, Matrix.dotProduct_zero] at hq
  exact lt_irrefl 0 hq

theorem fit_ok_of_posDef {n k : ℕ} (A : Matrix (Fin n) (Fin k) ℝ) (y : Fin n → ℝ)
    (hM : (Aᵀ * A).PosDef) :
    ∃ L x, cholesky k (Aᵀ * A) = .ok L ∧ fit A y = .ok x ∧ (Aᵀ * A) *ᵥ x = Aᵀ *ᵥ y := by
  obtain ⟨L, hL⟩ := cholesky_ok_of_posDef hM
  have hlow := cholesky_ok_lowerTriangular hL
  have hdne : ∀ i, L i i ≠ 0 := fun i => ne_of_gt (cholesky_ok_diag_pos hL i)
  have hdet : L.det ≠ 0 := lowerTriangular_det_ne_zero hlow hdne
  have hdetT : Lᵀ.det ≠ 0 := by rw [Matrix.det_transpose]; exact hdet
  have hfac := cholesky_ok_mul_transpose (transpose_mul_self_symm A) hL
  refine ⟨L, (Lᵀ)⁻¹ *ᵥ (L⁻¹ *ᵥ (Aᵀ *ᵥ y)), hL, ?_, ?_⟩
  · rw [fit, hL]
    simp only [Except.bind]
    rw [matrixSolve, if_pos hdet]
    simp only [Except.bind]
    rw [matrixSolve, if_pos hdetT]
  · have hmat : ((L * Lᵀ) * (Lᵀ)⁻¹) * L⁻¹ = 1 := by
      rw [mul_assoc L Lᵀ (Lᵀ)⁻¹, Matrix.mul_nonsing_inv _ (isUnit_iff_ne_zero.mpr hdetT),
        mul_one, Matrix.mul_nonsing_inv _ (isUnit_iff_ne_zero.mpr hdet)]
    rw [← hfac, Matrix.mulVec_mulVec, Matrix.mulVec_mulVec, hmat, Matrix.one_mulVec]

theorem fit_ok_of_injective {n k : ℕ} (A : Matrix (Fin n) (Fin k) ℝ) (y : Fin n → ℝ)
    (hA : Function.Injective A.mulVec) :
    ∃ x, fit A y = .ok x ∧ (Aᵀ * A) *ᵥ x = Aᵀ *ᵥ y := by
  obtain ⟨L, x, _, hx, hnorm⟩ := fit_ok_of_posDef A y (posDef_transpose_mul_self hA)
  exact ⟨x, hx, hnorm⟩

theorem twoCol_mulVec_injective {n : ℕ} {A : Matrix (Fin n) (Fin 2) ℝ} {xv : Fin n → ℝ}
    (hA : ∀ i, A i 0 = xv i ∧ A i 1 = 1) {i0 i1 : Fin n} (hne : xv i0 ≠ xv i1) :
    Function.Injective A.mulVec := by
  have hker : ∀ v : Fin 2 → ℝ, A *ᵥ v = 0 → v = 0 := by
    intro v hv
    have hrow : ∀ i, xv i * v 0 + v 1 = 0 := by
      intro i
      have hi := congrFun hv i
      simpa [Matrix.mulVec, dotProduct, Fin.sum_univ_two, (hA i).1, (hA i).2] using hi
    have h0 : v 0 = 0 := by
      have hsub : (xv i0 - xv i1) * v 0 = 0 := by
        linear_combination hrow i0 - hrow i1
      rcases mul_eq_zero.mp hsub with h | h
      · exact absurd (sub_eq_zero.mp h) hne
      · exact h
    have h1 : v 1 = 0 := by
      have hi := hrow i0
      rw [h0, mul_zero, zero_add] at hi
      exact hi
    funext j
    fin_cases j
    · exact h0
    · exact h1
  intro u w huw
  have hd := hker (u - w) (by rw [Matrix.mulVec_sub, huw, sub_self])
  exact sub_eq_zero.mp hd

/-! ## The claims -/

/-- C1: for every design matrix `A` with full column rank (injective `v ↦ A·v`)
and every target vector `y`, the pipeline succeeds and the coefficient vector
`x` it produces satisfies the normal equations: `Aᵀ·(A·x − y) = 0` (exactly, in
the exact-arithmetic embedding). -/
theorem fit_normal_equations {n k : ℕ} (A : Matrix (Fin n) (Fin k) ℝ) (y : Fin n → ℝ)
    (hA : Function.Injective A.mulVec) :
    ∃ x, fit A y = .ok x ∧ Aᵀ *ᵥ (A *ᵥ x - y) = 0 := by
  obtain ⟨x, hx, hnorm⟩ := fit_ok_of_injective A y hA
  refine ⟨x, hx, ?_⟩
  rw [Matrix.mulVec_sub, Matrix.mulVec_mulVec, hnorm, sub_self]

theorem fit_normal_equations_witness :
    ∃ x, fit (1 : Matrix (Fin 1) (Fin 1) ℝ) (fun _ => 1) = .ok x
      ∧ (1 : Matrix (Fin 1) (Fin 1) ℝ)ᵀ *ᵥ ((1 : Matrix (Fin 1) (Fin 1) ℝ) *ᵥ x
          - fun _ => 1) = 0 :=
  fit_normal_equations 1 (fun _ => 1) (fun a b h => by simpa using h)

/-- C2: the pipeline is exactly the spec's composition — `M = Aᵀ·A`,
`L = cholesky(M)`, first solve against `L` with right-hand side `Aᵀ·y`, second
solve against `Lᵀ`; the general solver used by the notebook agrees with the
spec's forward/back substitution on every input, including all error cases. -/
theorem fit_eq_fitSpec {n k : ℕ} (A : Matrix (Fin n) (Fin k) ℝ) (y : Fin n → ℝ) :
    fit A y = fitSpec A y := by
  rw [fit, fitSpec]
  cases hL : cholesky k (Aᵀ * A) with
  | error e => rfl
  | ok L =>
    simp only [Except.bind]
    have hlow := cholesky_ok_lowerTriangular hL
    have hdne : ∀ i, L i i ≠ 0 := fun i => ne_of_gt (cholesky_ok_diag_pos hL i)
    have hup := transpose_upperTriangular hlow
    have hdneT : ∀ i, Lᵀ i i ≠ 0 := fun i => hdne i
    rw [matrixSolve_eq_forwardSub hlow hdne, forwardSolve_ok hdne]
    simp only [Except.bind]
    rw [matrixSolve_eq_backSub hup hdneT, backSolve_ok hdneT]

/-- C3: for every symmetric positive-definite `M`, the Cholesky step succeeds
and returns a lower-triangular `L` with `L·Lᵀ = M` (exactly, in the
exact-arithmetic embedding). -/
theorem cholesky_posDef_roundtrip {n : ℕ} (M : Matrix (Fin n) (Fin n) ℝ)
    (hM : M.PosDef) :
    ∃ L, cholesky n M = .ok L ∧ lowerTriangular L ∧ L * Lᵀ = M := by
  obtain ⟨L, hL⟩ := cholesky_ok_of_posDef hM
  have hsym : Mᵀ = M := by
    rw [← Matrix.conjTranspose_eq_transpose_of_trivial]
    exact hM.1
  exact ⟨L, hL, cholesky_ok_lowerTriangular hL, cholesky_ok_mul_transpose hsym hL⟩

theorem cholesky_posDef_roundtrip_witness :
    ∃ L, cholesky 1 (1 : Matrix (Fin 1) (Fin 1) ℝ) = .ok L
      ∧ lowerTriangular L ∧ L * Lᵀ = 1 :=
  cholesky_posDef_roundtrip 1 Matrix.PosDef.one

/-- C4: whenever `A` has two identical columns, the normal matrix `Aᵀ·A` is not
positive definite, the Cholesky step hits a non-positive pivot and reports
`NotPositiveDefiniteError`, and the whole pipeline fails with that error
instead of returning coefficients. -/
theorem cholesky_duplicate_columns_error {n k : ℕ} (A : Matrix (Fin n) (Fin k) ℝ)
    (j j' : Fin k) (hjj : j ≠ j') (hcols : ∀ i, A i j = A i j') (y : Fin n → ℝ) :
    cholesky k (Aᵀ * A) = .error .notPositiveDefinite
      ∧ fit A y = .error .notPositiveDefinite := by
  have hnotpd : ¬ (Aᵀ * A).PosDef := by
    intro hpd
    have hvne : (Pi.single j 1 - Pi.single j' 1 : Fin k → ℝ) ≠ 0 := by
      intro h0
      have hj := congrFun h0 j
      simp [Pi.single_eq_same, Pi.single_eq_of_ne hjj] at hj
    have hAv : A *ᵥ (Pi.single j 1 - Pi.single j' 1) = 0 := by
      rw [Matrix.mulVec_sub]
      funext i
      simp [Matrix.mulVec_single, hcols i]
    have hq := hpd.2 _ hvne
    rw [star_trivial, ← Matrix.mulVec_mulVec, hAv, Matrix.mulVec_zero,
      Matrix.dotProduct_zero] at hq
    exact lt_irrefl 0 hq
  cases hc : cholesky k (Aᵀ * A) with
  | ok L => exact absurd (cholesky_ok_posDef (transpose_mul_self_symm A) hc) hnotpd
  | error e =>
    have he := cholesky_error_eq hc
    subst he
    refine ⟨rfl, ?_⟩
    rw [fit, hc]
    rfl

theorem cholesky_duplicate_columns_error_witness :
    cholesky 2 ((Matrix.of ![![(1:ℝ), 1]])ᵀ * Matrix.of ![![(1:ℝ), 1]])
        = .error .notPositiveDefinite
      ∧ fit (Matrix.of ![![(1:ℝ), 1]]) (fun _ => 0) = .error .notPositiveDefinite :=
  cholesky_duplicate_columns_error (Matrix.of ![![(1:ℝ), 1]]) 0 1 (by decide)
    (fun i => by fin_cases i; simp) (fun _ => 0)

/-- C5: whenever the row count of `A` differs from the length of `y`, or `A` is
not rectangular, the pipeline raises `DimensionMismatchError` and no result is
returned. -/
theorem fitL_dimension_mismatch (A : List (List ℝ)) (y : List ℝ)
    (h : y.length ≠ A.length ∨ ∃ r ∈ A, r.length ≠ (A.headD []).length) :
    fitL A y = .error .dimensionMismatch := by
  rw [fitL, if_neg]
  intro hcond
  rcases h with h | ⟨r, hr, hlen⟩
  · exact h hcond.2
  · exact hlen (hcond.1 r hr)

theorem fitL_dimension_mismatch_witness :
    fitL (List.replicate 100 [(1:ℝ)]) (List.replicate 99 (1:ℝ))
      = .error .dimensionMismatch :=
  fitL_dimension_mismatch _ _ (Or.inl (by simp))

/-- C6: a numerically zero diagonal pivot makes every solve fail with
`SingularSystemError` instead of silently producing a result: both
substitution solvers reject `L`, and so does the general solver (the
determinant of a triangular matrix with a zero diagonal entry vanishes). -/
theorem triangular_solve_zero_pivot_error {n : ℕ} (L : Matrix (Fin n) (Fin n) ℝ)
    (hL : lowerTriangular L) (i : Fin n) (hz : L i i = 0) (b : Fin n → ℝ) :
    forwardSolve L b = .error .singularSystem
      ∧ backSolve L b = .error .singularSystem
      ∧ matrixSolve L b = .error .singularSystem := by
  have hnall : ¬ ∀ j, L j j ≠ 0 := fun hall => hall i hz
  have hdet : L.det = 0 := by
    rw [lowerTriangular_det hL]
    exact Finset.prod_eq_zero (Finset.mem_univ i) hz
  exact ⟨by rw [forwardSolve, if_neg hnall], by rw [backSolve, if_neg hnall],
    by rw [matrixSolve, if_neg fun hcon => hcon hdet]⟩

theorem triangular_solve_zero_pivot_error_witness :
    forwardSolve (0 : Matrix (Fin 1) (Fin 1) ℝ) (fun _ => 1) = .error .singularSystem
      ∧ backSolve (0 : Matrix (Fin 1) (Fin 1) ℝ) (fun _ => 1) = .error .singularSystem
      ∧ matrixSolve (0 : Matrix (Fin 1) (Fin 1) ℝ) (fun _ => 1) = .error .singularSystem :=
  triangular_solve_zero_pivot_error 0 (fun _ _ _ => rfl) 0 rfl (fun _ => 1)

/-- C7: the pipeline is deterministic — it is a pure function of `(A, y)` with
no other input (no hidden state in the embedding), so any two runs on the same
pair return the identical value. -/
theorem fit_deterministic {n k : ℕ} (A : Matrix (Fin n) (Fin k) ℝ) (y : Fin n → ℝ)
    (r s : Except SolverError (Fin k → ℝ)) (h1 : fit A y = r) (h2 : fit A y = s) :
    r = s :=
  h1.symm.trans h2

theorem fit_deterministic_witness :
    fit (1 : Matrix (Fin 1) (Fin 1) ℝ) (fun _ => 1)
      = fit (1 : Matrix (Fin 1) (Fin 1) ℝ) (fun _ => 1) :=
  fit_deterministic 1 (fun _ => 1) _ _ rfl rfl

/-- C8: simple linear regression with columns `(x, 1)` on noise-free data
`y = 2·x + 3` (with at least two distinct x values) succeeds and returns
exactly slope 2 in component 0 and intercept 3 in component 1. -/
theorem fit_recovers_line {n : ℕ} (xv : Fin n → ℝ) (i0 i1 : Fin n)
    (hne : xv i0 ≠ xv i1) (A : Matrix (Fin n) (Fin 2) ℝ)
    (hA : ∀ i, A i 0 = xv i ∧ A i 1 = 1) (y : Fin n → ℝ)
    (hy : ∀ i, y i = 2 * xv i + 3) :
    ∃ x, fit A y = .ok x ∧ x 0 = 2 ∧ x 1 = 3 := by
  have hinj := twoCol_mulVec_injective hA hne
  have hyc : y = A *ᵥ (fun j => if j = 0 then (2:ℝ) else 3) := by
    funext i
    simp [Matrix.mulVec, dotProduct, Fin.sum_univ_two, (hA i).1, (hA i).2, hy i]
    ring
  obtain ⟨x, hx, hnorm⟩ := fit_ok_of_injective A y hinj
  have hcx : x = (fun j => if j = 0 then (2:ℝ) else 3) := by
    apply posDef_mulVec_injective (posDef_transpose_mul_self hinj)
    show (Aᵀ * A) *ᵥ x = (Aᵀ * A) *ᵥ _
    rw [hnorm, hyc, ← Matrix.mulVec_mulVec]
  refine ⟨x, hx, ?_, ?_⟩
  · rw [hcx]
    norm_num
  · rw [hcx]
    norm_num

theorem fit_recovers_line_witness :
    ∃ x, fit (Matrix.of ![![(0:ℝ), 1], ![1, 1]]) ![3, 5] = .ok x
      ∧ x 0 = 2 ∧ x 1 = 3 :=
  fit_recovers_line ![0, 1] 0 1 (by norm_num)
    (Matrix.of ![![(0:ℝ), 1], ![1, 1]])
    (fun i => by fin_cases i <;> exact ⟨by norm_num, by norm_num⟩)
    ![3, 5]
    (fun i => by fin_cases i <;> norm_num)

/-- C9: on a lower-triangular matrix with nonzero diagonal, the general solver
of the pipeline returns exactly the vector produced by top-to-bottom forward
substitution, and on its transpose exactly the vector produced by
bottom-to-top back substitution. -/
theorem matrixSolve_eq_substitution {n : ℕ} (L : Matrix (Fin n) (Fin n) ℝ)
    (hL : lowerTriangular L) (hd : ∀ i, L i i ≠ 0) (b z : Fin n → ℝ) :
    (matrixSolve L b = .ok (forwardSub L b)
        ∧ forwardSolve L b = .ok (forwardSub L b))
      ∧ (matrixSolve Lᵀ z = .ok (backSub Lᵀ z)
        ∧ backSolve Lᵀ z = .ok (backSub Lᵀ z)) :=
  ⟨⟨matrixSolve_eq_forwardSub hL hd b, forwardSolve_ok hd b⟩,
    ⟨matrixSolve_eq_backSub (transpose_upperTriangular hL) (fun i => hd i) z,
      backSolve_ok (show ∀ i, Lᵀ i i ≠ 0 from fun i => hd i) z⟩⟩

theorem matrixSolve_eq_substitution_witness :
    (matrixSolve (1 : Matrix (Fin 1) (Fin 1) ℝ) (fun _ => 2)
          = .ok (forwardSub 1 fun _ => 2)
        ∧ forwardSolve (1 : Matrix (Fin 1) (Fin 1) ℝ) (fun _ => 2)
          = .ok (forwardSub 1 fun _ => 2))
      ∧ (matrixSolve (1 : Matrix (Fin 1) (Fin 1) ℝ)ᵀ (fun _ => 3)
          = .ok (backSub (1 : Matrix (Fin 1) (Fin 1) ℝ)ᵀ fun _ => 3)
        ∧ backSolve (1 : Matrix (Fin 1) (Fin 1) ℝ)ᵀ (fun _ => 3)
          = .ok (backSub (1 : Matrix (Fin 1) (Fin 1) ℝ)ᵀ fun _ => 3)) :=
  matrixSolve_eq_substitution 1
    (fun i j h => absurd (Subsingleton.elim i j ▸ h) (lt_irrefl j))
    (fun i => by simp [Matrix.one_apply])
    (fun _ => 2) (fun _ => 3)

/-- C10: for the design matrix the notebook actually builds (100 pairwise
distinct x values and a column of ones), the normal matrix is positive
definite, the Cholesky step succeeds, and for every target vector the pipeline
returns a coefficient vector — none of the failure branches is reachable. -/
theorem designA_pipeline_total :
    (designAᵀ * designA).PosDef
      ∧ (∃ L, cholesky 2 (designAᵀ * designA) = .ok L)
      ∧ ∀ y : Fin 100 → ℝ, ∃ x, fit designA y = .ok x := by
  have hcols : ∀ i, designA i 0 = x_vals i ∧ designA i 1 = 1 := by
    intro i
    constructor
    · simp [designA]
    · simp [designA]
  have hne : x_vals 0 ≠ x_vals 1 := by
    simp only [x_vals]
    norm_num
  have hinj := twoCol_mulVec_injective hcols hne
  have hpd := posDef_transpose_mul_self hinj
  refine ⟨hpd, cholesky_ok_of_posDef hpd, fun y => ?_⟩
  obtain ⟨x, hx, -⟩ := fit_ok_of_injective designA y hinj
  exact ⟨x, hx⟩
